import Mathlib

/-!
Verification of the LST (Tunisian Sign Language) translation core:
a shallow embedding, in Lean 4, of the normalization / lookup pipeline
and the content index of the repository (files `app.py`,
`backend/sign_processor.py`, `backend/animation_db.py`,
`backend/config.py`), together with theorems settling the specified
properties.

Python strings are modelled as `List Char` (a Python `str` is a sequence
of code points).  The character-level primitives (`str.lower`,
`unicodedata.normalize('NFD', ·)` with removal of category-`Mn`
characters, `string.punctuation`, `str.split` / `str.strip` whitespace)
are modelled over the character repertoire the program works with:
ASCII plus the Latin-1 Western-European letters (the accented letters
the code's docstrings name: é, è, à, ô, î, ç, ü, …).  Outside that
repertoire the primitives act as the identity.
-/

/-- A Python string: a list of code points. -/
abbrev Str := List Char

/-- Python whitespace for `str.split()` / `str.strip()`:
space and the ASCII control whitespace `\t \n \v \f \r`. -/
def isWS (c : Char) : Bool :=
  c.toNat = 32 || (9 ≤ c.toNat && c.toNat ≤ 13)

/-- `string.punctuation` membership: the 32 ASCII punctuation characters,
i.e. code points 33–47, 58–64, 91–96 and 123–126. -/
def isPunct (c : Char) : Bool :=
  (33 ≤ c.toNat && c.toNat ≤ 47) || (58 ≤ c.toNat && c.toNat ≤ 64) ||
  (91 ≤ c.toNat && c.toNat ≤ 96) || (123 ≤ c.toNat && c.toNat ≤ 126)

/-- Nonspacing combining marks (Unicode category `Mn`), restricted to the
Combining Diacritical Marks block U+0300–U+036F, which contains every mark
produced by NFD decomposition of the Latin-1 letters. -/
def isMn (c : Char) : Bool :=
  768 ≤ c.toNat && c.toNat ≤ 879

/-- `str.lower` as a table: ASCII `A`–`Z` and the Latin-1 uppercase
letters `À`–`Þ` (U+00C0–U+00DE, excluding `×`) map to their lowercase
counterparts; every other character is left unchanged (see `pyLower`). -/
def lowerTable : List (Char × Char) :=
  [('A', 'a'), ('B', 'b'), ('C', 'c'), ('D', 'd'), ('E', 'e'), ('F', 'f'),
   ('G', 'g'), ('H', 'h'), ('I', 'i'), ('J', 'j'), ('K', 'k'), ('L', 'l'),
   ('M', 'm'), ('N', 'n'), ('O', 'o'), ('P', 'p'), ('Q', 'q'), ('R', 'r'),
   ('S', 's'), ('T', 't'), ('U', 'u'), ('V', 'v'), ('W', 'w'), ('X', 'x'),
   ('Y', 'y'), ('Z', 'z'),
   ('À', 'à'), ('Á', 'á'), ('Â', 'â'), ('Ã', 'ã'), ('Ä', 'ä'), ('Å', 'å'),
   ('Æ', 'æ'), ('Ç', 'ç'), ('È', 'è'), ('É', 'é'), ('Ê', 'ê'), ('Ë', 'ë'),
   ('Ì', 'ì'), ('Í', 'í'), ('Î', 'î'), ('Ï', 'ï'), ('Ð', 'ð'), ('Ñ', 'ñ'),
   ('Ò', 'ò'), ('Ó', 'ó'), ('Ô', 'ô'), ('Õ', 'õ'), ('Ö', 'ö'), ('Ø', 'ø'),
   ('Ù', 'ù'), ('Ú', 'ú'), ('Û', 'û'), ('Ü', 'ü'), ('Ý', 'ý'), ('Þ', 'þ')]

/-- Python `str.lower`, per character (locale-independent). -/
def pyLower (c : Char) : Char :=
  match lowerTable.find? (fun e => e.1 = c) with
  | some e => e.2
  | none => c

/-- Canonical (NFD) decompositions of the Latin-1 accented letters:
each decomposes into a base letter followed by one combining mark. -/
def nfdTable : List (Char × Char × Char) :=
  [('à', 'a', '̀'), ('á', 'a', '́'), ('â', 'a', '̂'),
   ('ã', 'a', '̃'), ('ä', 'a', '̈'), ('å', 'a', '̊'),
   ('ç', 'c', '̧'),
   ('è', 'e', '̀'), ('é', 'e', '́'), ('ê', 'e', '̂'),
   ('ë', 'e', '̈'),
   ('ì', 'i', '̀'), ('í', 'i', '́'), ('î', 'i', '̂'),
   ('ï', 'i', '̈'),
   ('ñ', 'n', '̃'),
   ('ò', 'o', '̀'), ('ó', 'o', '́'), ('ô', 'o', '̂'),
   ('õ', 'o', '̃'), ('ö', 'o', '̈'),
   ('ù', 'u', '̀'), ('ú', 'u', '́'), ('û', 'u', '̂'),
   ('ü', 'u', '̈'),
   ('ý', 'y', '́'), ('ÿ', 'y', '̈'),
   ('À', 'A', '̀'), ('Á', 'A', '́'), ('Â', 'A', '̂'),
   ('Ã', 'A', '̃'), ('Ä', 'A', '̈'), ('Å', 'A', '̊'),
   ('Ç', 'C', '̧'),
   ('È', 'E', '̀'), ('É', 'E', '́'), ('Ê', 'E', '̂'),
   ('Ë', 'E', '̈'),
   ('Ì', 'I', '̀'), ('Í', 'I', '́'), ('Î', 'I', '̂'),
   ('Ï', 'I', '̈'),
   ('Ñ', 'N', '̃'),
   ('Ò', 'O', '̀'), ('Ó', 'O', '́'), ('Ô', 'O', '̂'),
   ('Õ', 'O', '̃'), ('Ö', 'O', '̈'),
   ('Ù', 'U', '̀'), ('Ú', 'U', '́'), ('Û', 'U', '̂'),
   ('Ü', 'U', '̈'),
   ('Ý', 'Y', '́')]

/-- `unicodedata.normalize('NFD', ·)`, per character: an accented Latin-1
letter decomposes into base letter plus combining mark, any other
character decomposes trivially. -/
def nfdChar (c : Char) : List Char :=
  match nfdTable.find? (fun e => e.1 = c) with
  | some e => [e.2.1, e.2.2]
  | none => [c]

-- Table sanity facts, established once by computation.

/-- The lowercase letters produced by `lowerTable` are themselves fixed
points of `lowerTable` lookup. -/
theorem lowerTable_values_not_keys :
    lowerTable.all
      (fun e => (lowerTable.find? (fun e2 => e2.1 = e.2)).isNone) = true := by
  decide

/-- Every decomposition in `nfdTable` consists of a combining mark in
second position. -/
theorem nfdTable_marks : nfdTable.all (fun e => isMn e.2.2) = true := by
  decide

/-- Base letters of `nfdTable` decompose trivially and are neither marks,
punctuation nor whitespace. -/
theorem nfdTable_bases :
    nfdTable.all
      (fun e => (nfdTable.find? (fun e2 => e2.1 = e.2.1)).isNone &&
        !(isMn e.2.1) && !(isPunct e.2.1) && !(isWS e.2.1)) = true := by
  decide

/-- Every `nfdTable` entry either has an uppercase key (a `lowerTable`
key), or its base letter is a fixed point of `lowerTable` lookup. -/
theorem nfdTable_lower_compat :
    nfdTable.all
      (fun e => (lowerTable.find? (fun e2 => e2.1 = e.1)).isSome ||
        (lowerTable.find? (fun e2 => e2.1 = e.2.1)).isNone) = true := by
  decide

/-- The image of `pyLower` contains no `lowerTable` key. -/
theorem lower_image_not_key (c : Char) :
    lowerTable.find? (fun e => e.1 = pyLower c) = none := by
  rw [pyLower]
  cases h : lowerTable.find? (fun e => e.1 = c) with
  | none => exact h
  | some e =>
    have he := List.mem_of_find?_eq_some h
    have h2 := List.all_eq_true.mp lowerTable_values_not_keys e he
    simpa using h2

/-- `str.lower` is idempotent on the modelled repertoire. -/
theorem pyLower_idem (c : Char) : pyLower (pyLower c) = pyLower c := by
  have h := lower_image_not_key c
  conv_lhs => rw [pyLower]
  rw [h]

/-- Every non-mark character produced by NFD decomposition of a
lowercased character is itself lowercase-fixed and NFD-trivial. -/
theorem nfd_pyLower_good (c d : Char) (hd : d ∈ nfdChar (pyLower c))
    (hmn : isMn d = false) : pyLower d = d ∧ nfdChar d = [d] := by
  rw [nfdChar] at hd
  cases h : nfdTable.find? (fun e => e.1 = pyLower c) with
  | none =>
    rw [h] at hd
    simp only [List.mem_singleton] at hd
    subst hd
    refine ⟨pyLower_idem c, ?_⟩
    rw [nfdChar, h]
  | some e =>
    rw [h] at hd
    have he := List.mem_of_find?_eq_some h
    have hkey : e.1 = pyLower c := by simpa using List.find?_some h
    have hmark := List.all_eq_true.mp nfdTable_marks e he
    have hbase := List.all_eq_true.mp nfdTable_bases e he
    have hcompat := List.all_eq_true.mp nfdTable_lower_compat e he
    simp only [Bool.and_eq_true, Option.isNone_iff_eq_none] at hbase
    simp only [Bool.or_eq_true, Option.isSome_iff_exists,
      Option.isNone_iff_eq_none] at hcompat
    simp only [List.mem_cons, List.mem_singleton] at hd
    rcases hd with hd | hd | hd
    · subst hd
      have hlow : lowerTable.find? (fun e2 => e2.1 = e.2.1) = none := by
        rcases hcompat with ⟨w, hw⟩ | hnone
        · rw [hkey] at hw
          rw [lower_image_not_key c] at hw
          cases hw
        · exact hnone
      constructor
      · rw [pyLower, hlow]
      · rw [nfdChar, hbase.1.1.1]
    · subst hd
      rw [hmark] at hmn
      cases hmn
    · cases hd

/-- `str.lower` over a whole string. -/
def lowerStr (l : Str) : Str := l.map pyLower

/-- The accent-removal step common to all three normalizers:
`unicodedata.normalize('NFD', text)` followed by dropping every
character of category `Mn`. -/
def stripAccents (l : Str) : Str :=
  (l.flatMap nfdChar).filter (fun c => !(isMn c))

/-- `text.translate(str.maketrans('', '', string.punctuation))`:
delete every punctuation character. -/
def removePunct (l : Str) : Str := l.filter (fun c => !(isPunct c))

/-- Leading-whitespace removal (the front half of `str.strip()`). -/
def pyStripLeft (l : Str) : Str := l.dropWhile isWS

/-- Trailing-whitespace removal (the back half of `str.strip()`). -/
def pyStripRight (l : Str) : Str := (l.reverse.dropWhile isWS).reverse

/-- Python `str.strip()`: drop leading and trailing whitespace. -/
def pyStrip (l : Str) : Str := pyStripRight (pyStripLeft l)

/-- Worker for `pySplit`, structurally recursive on a fuel bound (the
fuel never runs out when it starts at the string length, see
`pySplitGo_fuel`). -/
def pySplitGo : Nat → Str → List Str
  | _, [] => []
  | 0, _ :: _ => []
  | fuel + 1, c :: cs =>
    if isWS c then pySplitGo fuel cs
    else (c :: cs.takeWhile (fun d => !(isWS d))) ::
      pySplitGo fuel (cs.dropWhile (fun d => !(isWS d)))

/-- Python `str.split()` with no argument: split on runs of whitespace,
discarding empty strings. -/
def pySplit (l : Str) : List Str := pySplitGo l.length l

/-- The fuel bound of `pySplitGo` is irrelevant once it covers the
string length. -/
theorem pySplitGo_fuel : ∀ (fuel₁ : Nat), ∀ (l : Str) (fuel₂ : Nat),
    l.length ≤ fuel₁ → l.length ≤ fuel₂ →
    pySplitGo fuel₁ l = pySplitGo fuel₂ l := by
  intro fuel₁
  induction fuel₁ with
  | zero =>
    intro l fuel₂ h1 _
    rw [Nat.le_zero, List.length_eq_zero] at h1
    subst h1
    cases fuel₂ <;> rfl
  | succ f₁ ih =>
    intro l fuel₂ h1 h2
    cases l with
    | nil => cases fuel₂ <;> rfl
    | cons c cs =>
      rw [List.length_cons] at h1 h2
      cases fuel₂ with
      | zero => exact absurd h2 (by simp)
      | succ f₂ =>
        have hc1 : cs.length ≤ f₁ := Nat.le_of_succ_le_succ h1
        have hc2 : cs.length ≤ f₂ := Nat.le_of_succ_le_succ h2
        show (if isWS c then pySplitGo f₁ cs else _) =
          (if isWS c then pySplitGo f₂ cs else _)
        by_cases h : isWS c = true
        · rw [if_pos h, if_pos h]
          exact ih cs f₂ hc1 hc2
        · rw [if_neg h, if_neg h]
          have hd : (cs.dropWhile (fun d => !(isWS d))).length ≤ cs.length :=
            (List.dropWhile_sublist _).length_le
          rw [ih (cs.dropWhile (fun d => !(isWS d))) f₂ (le_trans hd hc1)
            (le_trans hd hc2)]

/-- Custom induction principle for `pySplit`, mirroring its recursion
pattern. -/
theorem pySplit_induct (motive : Str → Prop) (hnil : motive [])
    (hws : ∀ (c : Char) (cs : Str), isWS c = true → motive cs →
      motive (c :: cs))
    (hword : ∀ (c : Char) (cs : Str), isWS c = false →
      motive (cs.dropWhile (fun d => !(isWS d))) → motive (c :: cs)) :
    ∀ l, motive l := by
  have key : ∀ (n : Nat) (l : Str), l.length ≤ n → motive l := by
    intro n
    induction n with
    | zero =>
      intro l h
      rw [Nat.le_zero, List.length_eq_zero] at h
      subst h
      exact hnil
    | succ n ih =>
      intro l h
      cases l with
      | nil => exact hnil
      | cons c cs =>
        rw [List.length_cons] at h
        have hc : cs.length ≤ n := Nat.le_of_succ_le_succ h
        by_cases hw : isWS c = true
        · exact hws c cs hw (ih cs hc)
        · refine hword c cs (by simpa using hw) (ih _ ?_)
          exact le_trans (List.dropWhile_sublist _).length_le hc
  exact fun l => key l.length l (Nat.le_refl _)

/-- Python `sep.join(words)` for a one-character separator. -/
def joinWords (sep : Char) : List Str → Str
  | [] => []
  | [w] => w
  | w :: w2 :: ws => w ++ sep :: joinWords sep (w2 :: ws)

/-- `normalize_text` from `app.py`: lowercase, strip accents via NFD,
delete punctuation, strip surrounding whitespace. -/
def normalize_text (text : Str) : Str :=
  pyStrip (removePunct (stripAccents (lowerStr text)))

namespace SignProcessor

/-- `SignProcessor.normalize_text` from `backend/sign_processor.py`:
lowercase, strip accents via NFD, delete punctuation, collapse
whitespace with `' '.join(text.split())`, then `strip()`. -/
def normalize_text (text : Str) : Str :=
  pyStrip (joinWords ' ' (pySplit (removePunct (stripAccents (lowerStr text)))))

/-- `SignProcessor.tokenize`: simple whitespace splitting. -/
def tokenize (text : Str) : List Str := pySplit text

end SignProcessor

namespace AnimationDatabase

/-- `AnimationDatabase._normalize_sign_id` from `backend/animation_db.py`:
lowercase, strip accents, delete punctuation except underscores, then
join the whitespace-split words with underscores. -/
def normalize_sign_id (filename : Str) : Str :=
  joinWords '_'
    (pySplit ((stripAccents (lowerStr filename)).filter
      (fun c => !(isPunct c) || c = '_')))

end AnimationDatabase

-- Character goodness of the normalizers' output.

/-- Every character surviving the lowercase/NFD/punctuation stages is a
fixed point of lowercasing and of NFD decomposition, and is neither a
combining mark nor punctuation. -/
theorem mem_core_good (l : Str) (d : Char)
    (hd : d ∈ removePunct (stripAccents (lowerStr l))) :
    pyLower d = d ∧ nfdChar d = [d] ∧ isMn d = false ∧ isPunct d = false := by
  unfold removePunct stripAccents lowerStr at hd
  simp only [List.mem_filter, List.mem_flatMap, List.mem_map,
    Bool.not_eq_true'] at hd
  obtain ⟨⟨⟨a, ⟨c, hcl, hca⟩, hda⟩, hmn⟩, hpunct⟩ := hd
  subst hca
  obtain ⟨h1, h2⟩ := nfd_pyLower_good c d hda hmn
  exact ⟨h1, h2, hmn, hpunct⟩

/-- As `mem_core_good`, but additionally through the
underscore-preserving punctuation filter of `normalize_sign_id`. -/
theorem mem_core_good_us (l : Str) (d : Char)
    (hd : d ∈ (stripAccents (lowerStr l)).filter
      (fun c => !(isPunct c) || c = '_')) :
    pyLower d = d ∧ nfdChar d = [d] ∧ isMn d = false ∧
      (isPunct d = false ∨ d = '_') := by
  unfold stripAccents lowerStr at hd
  simp only [List.mem_filter, List.mem_flatMap, List.mem_map,
    Bool.not_eq_true', Bool.or_eq_true, decide_eq_true_eq] at hd
  obtain ⟨⟨⟨a, ⟨c, hcl, hca⟩, hda⟩, hmn⟩, hpunct⟩ := hd
  subst hca
  obtain ⟨h1, h2⟩ := nfd_pyLower_good c d hda hmn
  exact ⟨h1, h2, hmn, hpunct⟩

/-- `lowerStr` fixes a string of lowercase-fixed characters. -/
theorem lowerStr_eq_self {l : Str} (h : ∀ d ∈ l, pyLower d = d) :
    lowerStr l = l := by
  induction l with
  | nil => rfl
  | cons a t ih =>
    simp only [lowerStr, List.map_cons]
    rw [h a (List.mem_cons_self a t)]
    have := ih fun d hd => h d (List.mem_cons_of_mem a hd)
    simp only [lowerStr] at this
    rw [this]

/-- `stripAccents` fixes a string of NFD-trivial non-mark characters. -/
theorem stripAccents_eq_self {l : Str} (h1 : ∀ d ∈ l, nfdChar d = [d])
    (h2 : ∀ d ∈ l, isMn d = false) : stripAccents l = l := by
  induction l with
  | nil => rfl
  | cons a t ih =>
    have ha1 := h1 a (List.mem_cons_self a t)
    have ha2 := h2 a (List.mem_cons_self a t)
    have ht := ih (fun d hd => h1 d (List.mem_cons_of_mem a hd))
      (fun d hd => h2 d (List.mem_cons_of_mem a hd))
    simp only [stripAccents, List.flatMap_cons, List.filter_append, ha1] at *
    simp only [List.filter_cons, ha2, Bool.not_false, if_pos, List.filter_nil]
    rw [ht]
    simp

/-- `removePunct` fixes a string without punctuation. -/
theorem removePunct_eq_self {l : Str} (h : ∀ d ∈ l, isPunct d = false) :
    removePunct l = l :=
  List.filter_eq_self.mpr fun a ha => by simp [h a ha]

-- Whitespace stripping machinery.

/-- `dropWhile` is idempotent. -/
theorem dropWhile_idem (p : Char → Bool) (l : List Char) :
    List.dropWhile p (List.dropWhile p l) = List.dropWhile p l := by
  induction l with
  | nil => rfl
  | cons a t ih =>
    by_cases h : p a = true
    · simp [List.dropWhile_cons, h, ih]
    · simp [List.dropWhile_cons, h]

/-- The first character remaining after `dropWhile` fails the predicate. -/
theorem head_dropWhile_false {p : Char → Bool} : ∀ {l : List Char} {a : Char},
    (List.dropWhile p l).head? = some a → p a = false := by
  intro l
  induction l with
  | nil => intro a h; cases h
  | cons b t ih =>
    intro a h
    by_cases hb : p b = true
    · rw [List.dropWhile_cons, if_pos hb] at h
      exact ih h
    · rw [List.dropWhile_cons, if_neg hb] at h
      rw [List.head?_cons, Option.some.injEq] at h
      subst h
      simpa using hb

/-- `dropWhile` preserves the last element when the result is nonempty. -/
theorem getLast?_dropWhile {p : Char → Bool} : ∀ (l : List Char),
    List.dropWhile p l ≠ [] → (List.dropWhile p l).getLast? = l.getLast? := by
  intro l
  induction l with
  | nil => intro h; exact absurd rfl h
  | cons b t ih =>
    intro h
    by_cases hb : p b = true
    · rw [List.dropWhile_cons, if_pos hb] at h ⊢
      cases t with
      | nil => exact absurd rfl h
      | cons c t' => rw [ih h, List.getLast?_cons_cons]
    · rw [List.dropWhile_cons, if_neg hb]

/-- A list whose first character fails the predicate is fixed by
`dropWhile`. -/
theorem dropWhile_eq_self_of_head {p : Char → Bool} {l : List Char}
    (h : ∀ a, l.head? = some a → p a = false) : List.dropWhile p l = l := by
  cases l with
  | nil => rfl
  | cons a t =>
    rw [List.dropWhile_cons, if_neg]
    simp [h a rfl]

/-- `pyStripRight` is idempotent. -/
theorem pyStripRight_idem (l : Str) :
    pyStripRight (pyStripRight l) = pyStripRight l := by
  unfold pyStripRight
  rw [List.reverse_reverse, dropWhile_idem]

/-- A fully stripped string has no leading whitespace left. -/
theorem pyStripLeft_pyStrip (l : Str) : pyStripLeft (pyStrip l) = pyStrip l := by
  unfold pyStrip pyStripRight pyStripLeft
  apply dropWhile_eq_self_of_head
  intro a ha
  rw [List.head?_reverse] at ha
  have hne : (l.dropWhile isWS).reverse.dropWhile isWS ≠ [] := by
    intro he
    rw [he] at ha
    cases ha
  rw [getLast?_dropWhile _ hne, List.getLast?_reverse] at ha
  exact head_dropWhile_false ha

/-- `str.strip()` is idempotent. -/
theorem pyStrip_idem (l : Str) : pyStrip (pyStrip l) = pyStrip l := by
  have h1 : pyStripLeft (pyStrip l) = pyStrip l := pyStripLeft_pyStrip l
  calc pyStrip (pyStrip l) = pyStripRight (pyStripLeft (pyStrip l)) := rfl
    _ = pyStripRight (pyStrip l) := by rw [h1]
    _ = pyStripRight (pyStripRight (pyStripLeft l)) := rfl
    _ = pyStripRight (pyStripLeft l) := pyStripRight_idem _
    _ = pyStrip l := rfl

/-- Characters of a stripped string come from the original. -/
theorem mem_of_mem_pyStrip {l : Str} {d : Char} (h : d ∈ pyStrip l) : d ∈ l := by
  unfold pyStrip pyStripRight pyStripLeft at h
  rw [List.mem_reverse] at h
  have h2 := (List.dropWhile_sublist _).subset h
  rw [List.mem_reverse] at h2
  exact (List.dropWhile_sublist _).subset h2

-- Tokenization machinery.

theorem pySplit_nil : pySplit [] = [] := rfl

theorem pySplit_cons_ws {c : Char} {cs : List Char} (h : isWS c = true) :
    pySplit (c :: cs) = pySplit cs := by
  show (if isWS c then pySplitGo cs.length cs
    else (c :: cs.takeWhile (fun d => !(isWS d))) ::
      pySplitGo cs.length (cs.dropWhile (fun d => !(isWS d)))) = pySplit cs
  rw [if_pos h]
  rfl

theorem pySplit_cons_nws {c : Char} {cs : List Char} (h : isWS c = false) :
    pySplit (c :: cs) = (c :: cs.takeWhile (fun d => !(isWS d))) ::
      pySplit (cs.dropWhile (fun d => !(isWS d))) := by
  show (if isWS c then pySplitGo cs.length cs
    else (c :: cs.takeWhile (fun d => !(isWS d))) ::
      pySplitGo cs.length (cs.dropWhile (fun d => !(isWS d)))) = _
  rw [if_neg (by simp [h])]
  rw [pySplitGo_fuel cs.length (cs.dropWhile (fun d => !(isWS d)))
    (cs.dropWhile (fun d => !(isWS d))).length
    ((List.dropWhile_sublist _).length_le) (Nat.le_refl _)]
  rfl

/-- Tokens produced by `str.split()` are nonempty and whitespace-free. -/
theorem pySplit_words (l : Str) :
    ∀ w ∈ pySplit l, w ≠ [] ∧ ∀ d ∈ w, isWS d = false := by
  induction l using pySplit_induct with
  | hnil => simp [pySplit_nil]
  | hws c cs h ih =>
    rw [pySplit_cons_ws h]
    exact ih
  | hword c cs h ih =>
    rw [pySplit_cons_nws h]
    intro w hw
    rcases List.mem_cons.mp hw with hw | hw
    · subst hw
      refine ⟨by simp, ?_⟩
      intro d hd
      rcases List.mem_cons.mp hd with hd | hd
      · subst hd
        exact h
      · have := List.mem_takeWhile_imp hd
        simpa using this
    · exact ih w hw

/-- Token characters come from the split string. -/
theorem pySplit_mem (l : Str) :
    ∀ w ∈ pySplit l, ∀ d ∈ w, d ∈ l := by
  induction l using pySplit_induct with
  | hnil => simp [pySplit_nil]
  | hws c cs h ih =>
    rw [pySplit_cons_ws h]
    intro w hw d hd
    exact List.mem_cons_of_mem c (ih w hw d hd)
  | hword c cs h ih =>
    rw [pySplit_cons_nws h]
    intro w hw d hd
    rcases List.mem_cons.mp hw with hw | hw
    · subst hw
      rcases List.mem_cons.mp hd with hd | hd
      · subst hd
        exact List.mem_cons_self d cs
      · exact List.mem_cons_of_mem c ((List.takeWhile_sublist _).subset hd)
    · exact List.mem_cons_of_mem c
        ((List.dropWhile_sublist _).subset (ih w hw d hd))

/-- An all-whitespace string splits into no tokens. -/
theorem pySplit_eq_nil_of_ws : ∀ (t : Str), (∀ c ∈ t, isWS c = true) →
    pySplit t = [] := by
  intro t
  induction t with
  | nil => intro; exact pySplit_nil
  | cons c cs ih =>
    intro h
    rw [pySplit_cons_ws (h c (List.mem_cons_self c cs))]
    exact ih fun d hd => h d (List.mem_cons_of_mem c hd)

theorem takeWhile_append_head {q : Char → Bool} : ∀ (cs t : List Char),
    (∀ c, t.head? = some c → q c = false) →
    (cs ++ t).takeWhile q = cs.takeWhile q := by
  intro cs
  induction cs with
  | nil =>
    intro t h
    cases t with
    | nil => rfl
    | cons s r =>
      simp only [List.nil_append, List.takeWhile_cons, List.takeWhile_nil]
      rw [h s rfl]
      simp
  | cons a cs ih =>
    intro t h
    by_cases ha : q a = true
    · simp only [List.cons_append, List.takeWhile_cons, ha, if_pos]
      rw [ih t h]
    · simp only [List.cons_append, List.takeWhile_cons, ha]
      simp [ha]

theorem dropWhile_append_head {q : Char → Bool} : ∀ (cs t : List Char),
    (∀ c, t.head? = some c → q c = false) →
    (cs ++ t).dropWhile q = cs.dropWhile q ++ t := by
  intro cs
  induction cs with
  | nil =>
    intro t h
    simp only [List.nil_append, List.dropWhile_nil]
    exact dropWhile_eq_self_of_head h
  | cons a cs ih =>
    intro t h
    by_cases ha : q a = true
    · simp only [List.cons_append, List.dropWhile_cons, ha, if_pos]
      exact ih t h
    · simp [List.dropWhile_cons, ha]

/-- Appending trailing whitespace does not change the token list. -/
theorem pySplit_append_ws : ∀ (l t : Str), (∀ c ∈ t, isWS c = true) →
    pySplit (l ++ t) = pySplit l := by
  intro l
  induction l using pySplit_induct with
  | hnil =>
    intro t h
    rw [List.nil_append, pySplit_nil]
    exact pySplit_eq_nil_of_ws t h
  | hws c cs h ih =>
    intro t ht
    rw [List.cons_append, pySplit_cons_ws h, pySplit_cons_ws h]
    exact ih t ht
  | hword c cs h ih =>
    intro t ht
    have hq : ∀ d, t.head? = some d → (fun d => !(isWS d)) d = false := by
      intro d hd
      have := ht d (List.mem_of_mem_head? (by rw [hd]; rfl))
      simp [this]
    rw [List.cons_append, pySplit_cons_nws h,
      pySplit_cons_nws h,
      takeWhile_append_head cs t hq, dropWhile_append_head cs t hq]
    rw [ih t ht]

/-- Leading whitespace does not change the token list. -/
theorem pySplit_pyStripLeft (l : Str) : pySplit (pyStripLeft l) = pySplit l := by
  induction l with
  | nil => rfl
  | cons c cs ih =>
    by_cases h : isWS c = true
    · rw [pySplit_cons_ws h]
      unfold pyStripLeft at *
      rw [List.dropWhile_cons, if_pos h]
      exact ih
    · unfold pyStripLeft
      rw [List.dropWhile_cons, if_neg h]

/-- Trailing whitespace does not change the token list. -/
theorem pySplit_pyStripRight (l : Str) : pySplit (pyStripRight l) = pySplit l := by
  have hdecomp : l = pyStripRight l ++ (l.reverse.takeWhile isWS).reverse := by
    unfold pyStripRight
    rw [← List.reverse_append, List.takeWhile_append_dropWhile, List.reverse_reverse]
  have hws : ∀ c ∈ (l.reverse.takeWhile isWS).reverse, isWS c = true := by
    intro c hc
    exact List.mem_takeWhile_imp (List.mem_reverse.mp hc)
  conv_rhs => rw [hdecomp]
  rw [pySplit_append_ws _ _ hws]

/-- `str.strip()` does not change the token list. -/
theorem pySplit_pyStrip (l : Str) : pySplit (pyStrip l) = pySplit l := by
  unfold pyStrip
  rw [pySplit_pyStripRight, pySplit_pyStripLeft]

/-- A nonempty whitespace-free string is a single token. -/
theorem pySplit_no_ws {w : Str} (hne : w ≠ []) (h : ∀ d ∈ w, isWS d = false) :
    pySplit w = [w] := by
  cases w with
  | nil => exact absurd rfl hne
  | cons c cs =>
    rw [pySplit_cons_nws (h c (List.mem_cons_self c cs))]
    have h1 : cs.takeWhile (fun d => !(isWS d)) = cs :=
      List.takeWhile_eq_self_iff.mpr fun x hx => by
        simp [h x (List.mem_cons_of_mem c hx)]
    have h2 : cs.dropWhile (fun d => !(isWS d)) = [] :=
      List.dropWhile_eq_nil_iff.mpr fun x hx => by
        simp [h x (List.mem_cons_of_mem c hx)]
    rw [h1, h2, pySplit_nil]

/-- Splitting a word followed by a whitespace character and a rest. -/
theorem pySplit_word_append {w : Str} (hne : w ≠ [])
    (h : ∀ d ∈ w, isWS d = false) {s : Char} (hs : isWS s = true) (r : Str) :
    pySplit (w ++ s :: r) = w :: pySplit r := by
  cases w with
  | nil => exact absurd rfl hne
  | cons c cs =>
    have hq : ∀ d, (s :: r).head? = some d → (fun d => !(isWS d)) d = false := by
      intro d hd
      rw [List.head?_cons, Option.some.injEq] at hd
      subst hd
      simp [hs]
    rw [List.cons_append, pySplit_cons_nws (h c (List.mem_cons_self c cs)),
      takeWhile_append_head cs _ hq, dropWhile_append_head cs _ hq]
    have h1 : cs.takeWhile (fun d => !(isWS d)) = cs :=
      List.takeWhile_eq_self_iff.mpr fun x hx => by
        simp [h x (List.mem_cons_of_mem c hx)]
    have h2 : cs.dropWhile (fun d => !(isWS d)) = [] :=
      List.dropWhile_eq_nil_iff.mpr fun x hx => by
        simp [h x (List.mem_cons_of_mem c hx)]
    rw [h1, h2, List.nil_append, pySplit_cons_ws hs]

/-- Splitting `' '.join(words)` recovers the words, for nonempty
whitespace-free words. -/
theorem pySplit_joinWords_space : ∀ (ws : List Str),
    (∀ w ∈ ws, w ≠ [] ∧ ∀ d ∈ w, isWS d = false) →
    pySplit (joinWords ' ' ws) = ws := by
  intro ws
  induction ws with
  | nil => intro; exact pySplit_nil
  | cons w ws ih =>
    intro h
    cases ws with
    | nil =>
      have hw := h w (List.mem_cons_self w [])
      exact pySplit_no_ws hw.1 hw.2
    | cons w2 ws' =>
      have hw := h w (List.mem_cons_self w _)
      have hrest := ih fun x hx => h x (List.mem_cons_of_mem w hx)
      show pySplit (w ++ ' ' :: joinWords ' ' (w2 :: ws')) = w :: w2 :: ws'
      rw [pySplit_word_append hw.1 hw.2 (by decide) _, hrest]

/-- Characters of a joined word list come from the words or are the
separator. -/
theorem mem_joinWords {sep : Char} : ∀ {ws : List Str} {d : Char},
    d ∈ joinWords sep ws → (∃ w ∈ ws, d ∈ w) ∨ d = sep := by
  intro ws
  induction ws with
  | nil => intro d hd; cases hd
  | cons w ws ih =>
    intro d hd
    cases ws with
    | nil => exact Or.inl ⟨w, List.mem_cons_self w [], hd⟩
    | cons w2 ws' =>
      rcases List.mem_append.mp hd with hd | hd
      · exact Or.inl ⟨w, List.mem_cons_self w _, hd⟩
      · rcases List.mem_cons.mp hd with hd | hd
        · exact Or.inr hd
        · rcases ih hd with ⟨x, hx, hdx⟩ | hd
          · exact Or.inl ⟨x, List.mem_cons_of_mem w hx, hdx⟩
          · exact Or.inr hd

/-- A word list joined with a non-whitespace separator contains no
whitespace. -/
theorem joinWords_no_ws {sep : Char} (hsep : isWS sep = false) :
    ∀ {ws : List Str}, (∀ w ∈ ws, ∀ d ∈ w, isWS d = false) →
    ∀ d ∈ joinWords sep ws, isWS d = false := by
  intro ws h d hd
  rcases mem_joinWords hd with ⟨w, hw, hdw⟩ | hd
  · exact h w hw d hdw
  · subst hd
    exact hsep

-- Idempotence of the three normalizers.

/-- The space character is inert for every pipeline stage. -/
theorem space_good : pyLower ' ' = ' ' ∧ nfdChar ' ' = [' '] ∧
    isMn ' ' = false ∧ isPunct ' ' = false := by
  decide

/-- The underscore is inert for lowercasing and NFD, and is not
whitespace. -/
theorem underscore_good : pyLower '_' = '_' ∧ nfdChar '_' = ['_'] ∧
    isMn '_' = false ∧ isWS '_' = false := by
  decide

/-- A string of stage-inert characters is fixed by the
lowercase/NFD/punctuation core. -/
theorem core_eq_self {y : Str}
    (h : ∀ d ∈ y, pyLower d = d ∧ nfdChar d = [d] ∧ isMn d = false ∧
      isPunct d = false) :
    removePunct (stripAccents (lowerStr y)) = y := by
  rw [lowerStr_eq_self fun d hd => (h d hd).1,
    stripAccents_eq_self (fun d hd => (h d hd).2.1) fun d hd => (h d hd).2.2.1,
    removePunct_eq_self fun d hd => (h d hd).2.2.2]

/-- A string of stage-inert characters (underscores allowed) is fixed by
the underscore-preserving core of `normalize_sign_id`. -/
theorem us_core_eq_self {y : Str}
    (h : ∀ d ∈ y, pyLower d = d ∧ nfdChar d = [d] ∧ isMn d = false ∧
      (isPunct d = false ∨ d = '_')) :
    (stripAccents (lowerStr y)).filter (fun c => !(isPunct c) || c = '_') = y := by
  rw [lowerStr_eq_self fun d hd => (h d hd).1,
    stripAccents_eq_self (fun d hd => (h d hd).2.1) fun d hd => (h d hd).2.2.1]
  refine List.filter_eq_self.mpr fun a ha => ?_
  rcases (h a ha).2.2.2 with h1 | h1
  · simp [h1]
  · simp [h1]

/-- `app.normalize_text` is idempotent. -/
theorem app_normalize_text_idem (l : Str) :
    normalize_text (normalize_text l) = normalize_text l := by
  have hy : ∀ d ∈ normalize_text l,
      pyLower d = d ∧ nfdChar d = [d] ∧ isMn d = false ∧ isPunct d = false :=
    fun d hd => mem_core_good l d (mem_of_mem_pyStrip hd)
  show pyStrip (removePunct (stripAccents (lowerStr (normalize_text l)))) =
    normalize_text l
  rw [core_eq_self hy]
  exact pyStrip_idem _

/-- `SignProcessor.normalize_text` is idempotent. -/
theorem sp_normalize_text_idem (l : Str) :
    SignProcessor.normalize_text (SignProcessor.normalize_text l) =
      SignProcessor.normalize_text l := by
  have hy : ∀ d ∈ SignProcessor.normalize_text l,
      pyLower d = d ∧ nfdChar d = [d] ∧ isMn d = false ∧ isPunct d = false := by
    intro d hd
    have hd2 := mem_of_mem_pyStrip hd
    rcases mem_joinWords hd2 with ⟨w, hw, hdw⟩ | hd3
    · exact mem_core_good l d (pySplit_mem _ w hw d hdw)
    · subst hd3
      exact space_good
  show pyStrip (joinWords ' '
    (pySplit (removePunct (stripAccents (lowerStr (SignProcessor.normalize_text l)))))) =
    SignProcessor.normalize_text l
  rw [core_eq_self hy]
  show pyStrip (joinWords ' '
    (pySplit (pyStrip (joinWords ' '
      (pySplit (removePunct (stripAccents (lowerStr l)))))))) = _
  rw [pySplit_pyStrip, pySplit_joinWords_space _ (pySplit_words _)]
  rfl

/-- `AnimationDatabase._normalize_sign_id` is idempotent. -/
theorem normalize_sign_id_idem (l : Str) :
    AnimationDatabase.normalize_sign_id (AnimationDatabase.normalize_sign_id l) =
      AnimationDatabase.normalize_sign_id l := by
  have hws : ∀ d ∈ AnimationDatabase.normalize_sign_id l, isWS d = false := by
    intro d hd
    exact joinWords_no_ws underscore_good.2.2.2
      (fun w hw => (pySplit_words _ w hw).2) d hd
  have hy : ∀ d ∈ AnimationDatabase.normalize_sign_id l,
      pyLower d = d ∧ nfdChar d = [d] ∧ isMn d = false ∧
        (isPunct d = false ∨ d = '_') := by
    intro d hd
    rcases mem_joinWords hd with ⟨w, hw, hdw⟩ | hd3
    · exact mem_core_good_us l d (pySplit_mem _ w hw d hdw)
    · subst hd3
      exact ⟨underscore_good.1, underscore_good.2.1, underscore_good.2.2.1,
        Or.inr rfl⟩
  show joinWords '_'
    (pySplit ((stripAccents (lowerStr (AnimationDatabase.normalize_sign_id l))).filter
      (fun c => !(isPunct c) || c = '_'))) = AnimationDatabase.normalize_sign_id l
  rw [us_core_eq_self hy]
  by_cases hnil : AnimationDatabase.normalize_sign_id l = []
  · rw [hnil, pySplit_nil]
    rfl
  · rw [pySplit_no_ws hnil hws]
    rfl

/-- Token equivalence of the two normalizer variants: whitespace
splitting erases their only difference (whitespace collapsing). -/
theorem tokens_app_eq_sp (l : Str) :
    pySplit (normalize_text l) =
      SignProcessor.tokenize (SignProcessor.normalize_text l) := by
  show pySplit (pyStrip (removePunct (stripAccents (lowerStr l)))) =
    pySplit (pyStrip (joinWords ' '
      (pySplit (removePunct (stripAccents (lowerStr l))))))
  rw [pySplit_pyStrip, pySplit_pyStrip, pySplit_joinWords_space _ (pySplit_words _)]

-- The content index and the matcher.

/-- Lookup in an insertion-ordered Python `dict`, modelled as an
association list (first binding wins; builders below never insert a
duplicate key). -/
def alookup {β : Type} (db : List (Str × β)) (k : Str) : Option β :=
  (db.find? (fun e => e.1 = k)).map (fun e => e.2)

/-- The video database: normalized word ↦ relative video path. -/
abbrev DB := List (Str × Str)

/-- One iteration of the matching loop of `text_to_videos` in `app.py`:
a database hit appends the path and the word to the video and matched
lists, a miss appends the word to the missing list. -/
def text_to_videos_step (db : DB) (acc : List Str × List Str × List Str)
    (w : Str) : List Str × List Str × List Str :=
  match alookup db w with
  | some p => (acc.1 ++ [p], acc.2.1 ++ [w], acc.2.2)
  | none => (acc.1, acc.2.1, acc.2.2 ++ [w])

/-- `text_to_videos` from `app.py`: normalize the whole text, split into
words, match each word against the database; returns
`(video_list, matched_words, missing_words)`. -/
def text_to_videos (db : DB) (text : Str) :
    List Str × List Str × List Str :=
  (pySplit (normalize_text text)).foldl (text_to_videos_step db) ([], [], [])

/-- The matching loop builds the three lists as order-preserving filters
of the token list. -/
theorem text_to_videos_fold (db : DB) : ∀ (ws : List Str)
    (acc : List Str × List Str × List Str),
    ws.foldl (text_to_videos_step db) acc =
      (acc.1 ++ (ws.filter (fun w => (alookup db w).isSome)).map
          (fun w => (alookup db w).getD []),
       acc.2.1 ++ ws.filter (fun w => (alookup db w).isSome),
       acc.2.2 ++ ws.filter (fun w => (alookup db w).isNone)) := by
  intro ws
  induction ws with
  | nil => intro acc; simp
  | cons w ws ih =>
    intro acc
    rw [List.foldl_cons, ih]
    cases h : alookup db w with
    | some p =>
      simp [text_to_videos_step, h, List.filter_cons]
    | none =>
      simp [text_to_videos_step, h, List.filter_cons]

/-- `SignMatch` from `backend/sign_processor.py` (the constant
`confidence = 1.0` and the always-empty `metadata` dict are omitted
from the model). -/
structure SignMatch where
  word : Str
  sign_id : Str
deriving DecidableEq

/-- `SignSequence` from `backend/sign_processor.py`. -/
structure SignSequence where
  matched_signs : List SignMatch
  missing_words : List Str
  original_text : Str
  normalized_text : Str
deriving DecidableEq

namespace SignProcessor

/-- `SignProcessor._map_word_to_sign`: exact dictionary lookup; a hit
records the word itself together with its sign id. -/
def map_word_to_sign (db : DB) (word : Str) : Option SignMatch :=
  match alookup db word with
  | some s => some ⟨word, s⟩
  | none => none

/-- One iteration of the mapping loop of `SignProcessor.process_text`. -/
def process_text_step (db : DB) (acc : List SignMatch × List Str)
    (w : Str) : List SignMatch × List Str :=
  match map_word_to_sign db w with
  | some s => (acc.1 ++ [s], acc.2)
  | none => (acc.1, acc.2 ++ [w])

/-- `SignProcessor.process_text`: normalize, tokenize, map each word to
a sign, collect matches and missing words in input order. -/
def process_text (db : DB) (text : Str) : SignSequence :=
  let normalized := normalize_text text
  let r := (tokenize normalized).foldl (process_text_step db) ([], [])
  ⟨r.1, r.2, text, normalized⟩

end SignProcessor

/-- The `process_text` loop builds matches and missing words as
order-preserving filters of the token list. -/
theorem process_text_fold (db : DB) : ∀ (ws : List Str)
    (acc : List SignMatch × List Str),
    ws.foldl (SignProcessor.process_text_step db) acc =
      (acc.1 ++ (ws.filter (fun w => (alookup db w).isSome)).map
          (fun w => ⟨w, (alookup db w).getD []⟩),
       acc.2 ++ ws.filter (fun w => (alookup db w).isNone)) := by
  intro ws
  induction ws with
  | nil => intro acc; simp
  | cons w ws ih =>
    intro acc
    rw [List.foldl_cons, ih]
    cases h : alookup db w with
    | some p =>
      simp [SignProcessor.process_text_step, SignProcessor.map_word_to_sign,
        h, List.filter_cons]
    | none =>
      simp [SignProcessor.process_text_step, SignProcessor.map_word_to_sign,
        h, List.filter_cons]

/-- C1: for every database and input text, both pipeline variants
produce their matched and missing lists as the order-preserving
partition of the whitespace-tokenized normalized input by database
membership: matched words (with their paired asset paths, in the video
list) are exactly the tokens found in the database, in token order, and
missing words are exactly the tokens not found, in token order. -/
theorem translate_order_preserving_partition (db : DB) (text : Str) :
    (text_to_videos db text).2.1 =
      (pySplit (normalize_text text)).filter
        (fun w => (alookup db w).isSome) ∧
    (text_to_videos db text).2.2 =
      (pySplit (normalize_text text)).filter
        (fun w => (alookup db w).isNone) ∧
    (text_to_videos db text).1 =
      ((pySplit (normalize_text text)).filter
        (fun w => (alookup db w).isSome)).map
        (fun w => (alookup db w).getD []) ∧
    (SignProcessor.process_text db text).matched_signs.map SignMatch.word =
      (SignProcessor.tokenize (SignProcessor.normalize_text text)).filter
        (fun w => (alookup db w).isSome) ∧
    (SignProcessor.process_text db text).missing_words =
      (SignProcessor.tokenize (SignProcessor.normalize_text text)).filter
        (fun w => (alookup db w).isNone) := by
  have h1 := text_to_videos_fold db (pySplit (normalize_text text)) ([], [], [])
  have h2 := process_text_fold db
    (SignProcessor.tokenize (SignProcessor.normalize_text text)) ([], [])
  refine ⟨?_, ?_, ?_, ?_, ?_⟩
  · unfold text_to_videos
    rw [h1]
    rfl
  · unfold text_to_videos
    rw [h1]
    rfl
  · unfold text_to_videos
    rw [h1]
    rfl
  · show ((SignProcessor.tokenize (SignProcessor.normalize_text text)).foldl
      (SignProcessor.process_text_step db) ([], [])).1.map SignMatch.word = _
    rw [h2]
    simp only [List.nil_append, List.map_map]
    exact List.map_id'' (fun x => rfl) _
  · show ((SignProcessor.tokenize (SignProcessor.normalize_text text)).foldl
      (SignProcessor.process_text_step db) ([], [])).2 = _
    rw [h2]
    simp

/-- C4: the per-token canonicalization of the pipeline is a closure.
In the source the cascade is degenerate — `_map_word_to_sign` performs
an exact lookup and records the token itself, unchanged, as the
canonical word of the match (there are no rewrite tables) — so
canonicalizing an already-canonical word changes nothing: re-mapping
the word recorded in a match yields the very same match. -/
theorem map_word_to_sign_closure (db : DB) (w : Str) (m : SignMatch)
    (h : SignProcessor.map_word_to_sign db w = some m) :
    m.word = w ∧ SignProcessor.map_word_to_sign db m.word = some m := by
  unfold SignProcessor.map_word_to_sign at h ⊢
  cases hl : alookup db w with
  | none =>
    rw [hl] at h
    cases h
  | some s =>
    rw [hl] at h
    simp only [Option.some.injEq] at h
    subst h
    exact ⟨rfl, by rw [hl]⟩

/-- Witness for `map_word_to_sign_closure` at a concrete database and
word. -/
theorem map_word_to_sign_closure_witness :
    (⟨"oui".data, "oui".data⟩ : SignMatch).word = "oui".data ∧
    SignProcessor.map_word_to_sign [("oui".data, "oui".data)]
      (⟨"oui".data, "oui".data⟩ : SignMatch).word =
      some ⟨"oui".data, "oui".data⟩ :=
  map_word_to_sign_closure [("oui".data, "oui".data)] "oui".data
    ⟨"oui".data, "oui".data⟩ (by decide)

/-- C3: all three normalization functions of the system — the
module-level `normalize_text` of `app.py`, `SignProcessor.normalize_text`
and `AnimationDatabase._normalize_sign_id` — are projections:
normalizing twice equals normalizing once. -/
theorem normalization_projection (x : Str) :
    normalize_text (normalize_text x) = normalize_text x ∧
    SignProcessor.normalize_text (SignProcessor.normalize_text x) =
      SignProcessor.normalize_text x ∧
    AnimationDatabase.normalize_sign_id
        (AnimationDatabase.normalize_sign_id x) =
      AnimationDatabase.normalize_sign_id x :=
  ⟨app_normalize_text_idem x, sp_normalize_text_idem x,
    normalize_sign_id_idem x⟩

/-- C10: the two coexisting normalizer variants are token-equivalent —
whitespace-splitting the output of the app-level `normalize_text`
yields exactly the token list of `SignProcessor.tokenize` applied to
`SignProcessor.normalize_text`, for every input. -/
theorem normalizer_variants_token_equivalent (text : Str) :
    pySplit (normalize_text text) =
      SignProcessor.tokenize (SignProcessor.normalize_text text) :=
  tokens_app_eq_sp text

-- Index construction from the filesystem.

/-- Python `os.path.splitext`: split a filename into stem and extension
at the last dot, except when every character before that dot is itself a
dot (leading-dot names have no extension). -/
def pySplitext (l : Str) : Str × Str :=
  let extLen := (l.reverse.takeWhile (fun c => c ≠ '.')).length
  if extLen = l.length then (l, [])
  else
    let stemLen := l.length - extLen - 1
    if (l.take stemLen).all (fun c => c = '.') then (l, [])
    else (l.take stemLen, l.drop stemLen)

/-- A file discovered by `os.walk`: its path relative to the scan root
(as stored by the builders), its base filename, and the base name of its
directory (used as a category tag by the animation database). -/
structure ScanFile where
  relPath : Str
  filename : Str
  dirName : Str
deriving DecidableEq

/-- `filename.lower().endswith('.mp4')` from `load_video_database`. -/
def is_mp4_file (filename : Str) : Bool :=
  List.isSuffixOf ".mp4".data (filename.map pyLower)

/-- Result of building the video index: the database, the number of
files inserted, and whether the missing-directory warning was printed. -/
structure LoadResult where
  db : DB
  count : Nat
  warned : Bool
deriving DecidableEq

/-- One file of the scan loop of `load_video_database` in `app.py`:
an `.mp4` file is keyed by the normalized filename stem and inserted
only if the key is absent (duplicates keep the first occurrence). -/
def load_video_database_step (st : DB × Nat) (f : ScanFile) : DB × Nat :=
  if is_mp4_file f.filename then
    if (alookup st.1 (normalize_text (pySplitext f.filename).1)).isNone then
      (st.1 ++ [(normalize_text (pySplitext f.filename).1, f.relPath)],
        st.2 + 1)
    else st
  else st

/-- `load_video_database` from `app.py`.  The filesystem is modelled as
`Option (List ScanFile)`: `none` means the video root does not exist
(`os.path.exists` is false), in which case the function only prints a
warning (`warned`) and leaves the module-level database empty;
otherwise the scan folds over the files in traversal order. -/
def load_video_database (root : Option (List ScanFile)) : LoadResult :=
  match root with
  | none => ⟨[], 0, true⟩
  | some files =>
    let st := files.foldl load_video_database_step ([], 0)
    ⟨st.1, st.2, false⟩

/-- One file of `create_sign_database_from_files` in
`backend/sign_processor.py`: the normalized stem becomes both key and
value, inserted only if nonempty and absent. -/
def create_sign_database_step (db : DB) (filename : Str) : DB :=
  if SignProcessor.normalize_text (pySplitext filename).1 ≠ [] ∧
      alookup db (SignProcessor.normalize_text (pySplitext filename).1) = none
  then db ++ [(SignProcessor.normalize_text (pySplitext filename).1,
    SignProcessor.normalize_text (pySplitext filename).1)]
  else db

/-- `create_sign_database_from_files` from `backend/sign_processor.py`. -/
def create_sign_database_from_files (file_list : List Str) : DB :=
  file_list.foldl create_sign_database_step []

/-- `AnimationMetadata` from `backend/animation_db.py`, restricted to
the fields the scan fills with file-dependent data (the float-valued
`duration`/transition defaults, `fps = 30` and the constant skeleton
string are omitted from the model). -/
structure AnimationMetadata where
  sign_id : Str
  file_path : Str
  format : Str
  tags : List Str
deriving DecidableEq

/-- The `supported_formats` list of
`AnimationDatabase.load_from_filesystem`. -/
def animation_supported_formats : List Str :=
  [".fbx".data, ".bvh".data, ".gltf".data]

/-- One file of the scan loop of
`AnimationDatabase.load_from_filesystem`: a file with a supported
(lowercased) extension is keyed by its normalized sign id and inserted
only if absent. -/
def animation_load_step (st : List (Str × AnimationMetadata) × Nat)
    (f : ScanFile) : List (Str × AnimationMetadata) × Nat :=
  if ((pySplitext f.filename).2.map pyLower) ∈ animation_supported_formats then
    if (alookup st.1
        (AnimationDatabase.normalize_sign_id (pySplitext f.filename).1)).isNone
    then
      (st.1 ++ [(AnimationDatabase.normalize_sign_id (pySplitext f.filename).1,
        ⟨AnimationDatabase.normalize_sign_id (pySplitext f.filename).1,
          f.relPath, ((pySplitext f.filename).2.map pyLower).drop 1,
          if f.dirName ≠ [] then [f.dirName] else []⟩)], st.2 + 1)
    else st
  else st

/-- `AnimationDatabase.load_from_filesystem`: `none` models a missing
scan directory (warning printed, zero loaded); otherwise the scan folds
over the files in traversal order. -/
def animation_load_from_filesystem (root : Option (List ScanFile)) :
    List (Str × AnimationMetadata) × Nat × Bool :=
  match root with
  | none => ([], 0, true)
  | some files =>
    let st := files.foldl animation_load_step ([], 0)
    (st.1, st.2, false)

/-- Appending a single binding only affects lookups of its key, and only
when the key was absent. -/
theorem alookup_append {β : Type} (db : List (Str × β)) (a : Str) (b : β)
    (k : Str) :
    alookup (db ++ [(a, b)]) k =
      (alookup db k).or (if a = k then some b else none) := by
  unfold alookup
  rw [List.find?_append]
  by_cases h : a = k
  · subst h
    rw [List.find?_cons_of_pos _ (by simp)]
    cases db.find? (fun e => e.1 = a) <;> simp
  · rw [List.find?_cons_of_neg _ (by simp [h])]
    cases db.find? (fun e => e.1 = k) <;> simp [h]

/-- Generic first-wins property of an insert-if-absent scan: after the
fold, each key is bound to the value of the first accepted file whose
key it is (bindings already present in the accumulator take precedence
and are never overwritten). -/
theorem insert_fold_lookup {α β : Type} (accept : α → Bool) (key : α → Str)
    (val : α → β) (step : List (Str × β) × Nat → α → List (Str × β) × Nat)
    (hstep : ∀ st f, step st f =
      if accept f then
        (if (alookup st.1 (key f)).isNone then
          (st.1 ++ [(key f, val f)], st.2 + 1) else st)
      else st) :
    ∀ (files : List α) (st : List (Str × β) × Nat) (k : Str),
    alookup (files.foldl step st).1 k =
      (alookup st.1 k).or
        ((files.find? (fun f => accept f && (key f = k))).map
          (fun f => val f)) := by
  intro files
  induction files with
  | nil =>
    intro st k
    simp
  | cons f fs ih =>
    intro st k
    rw [List.foldl_cons, ih, hstep]
    by_cases hm : accept f = true
    · rw [if_pos hm]
      by_cases habs : (alookup st.1 (key f)).isNone = true
      · rw [if_pos habs]
        by_cases hk : key f = k
        · subst hk
          rw [alookup_append, Option.isNone_iff_eq_none.mp habs,
            List.find?_cons_of_pos _ (by simp [hm])]
          simp
        · rw [alookup_append, if_neg hk, Option.or_none,
            List.find?_cons_of_neg _ (by simp [hk])]
      · rw [if_neg habs]
        by_cases hk : key f = k
        · subst hk
          obtain ⟨v, hv⟩ : ∃ v, alookup st.1 (key f) = some v := by
            rcases h2 : alookup st.1 (key f) with _ | v
            · rw [h2] at habs
              simp at habs
            · exact ⟨v, rfl⟩
          rw [hv]
          simp
        · rw [List.find?_cons_of_neg _ (by simp [hk])]
    · rw [if_neg hm, List.find?_cons_of_neg _ (by simp [hm])]

/-- First-wins property of `create_sign_database_from_files`: each key
is bound to the (nonempty) normalized stem of the first file that
produced it. -/
theorem create_fold_lookup : ∀ (file_list : List Str) (db0 : DB) (k : Str),
    alookup (file_list.foldl create_sign_database_step db0) k =
      (alookup db0 k).or
        ((file_list.find? (fun fn =>
          !(SignProcessor.normalize_text (pySplitext fn).1).isEmpty &&
          (SignProcessor.normalize_text (pySplitext fn).1 = k))).map
          (fun fn => SignProcessor.normalize_text (pySplitext fn).1)) := by
  intro file_list
  induction file_list with
  | nil =>
    intro db0 k
    simp
  | cons fn fs ih =>
    intro db0 k
    rw [List.foldl_cons, ih]
    unfold create_sign_database_step
    by_cases hne : SignProcessor.normalize_text (pySplitext fn).1 = []
    · rw [if_neg (by simp [hne])]
      rw [List.find?_cons_of_neg _ (by simp [hne])]
    · by_cases habs : alookup db0 (SignProcessor.normalize_text (pySplitext fn).1) = none
      · rw [if_pos ⟨hne, habs⟩]
        by_cases hk : SignProcessor.normalize_text (pySplitext fn).1 = k
        · rw [alookup_append, if_pos hk, ← hk, habs,
            List.find?_cons_of_pos _ (by rw [hk] at hne; simp [hk, hne])]
          simp
        · rw [alookup_append, if_neg hk, Option.or_none,
            List.find?_cons_of_neg _ (by simp [hk])]
      · rw [if_neg (by intro hc; exact habs hc.2)]
        by_cases hk : SignProcessor.normalize_text (pySplitext fn).1 = k
        · obtain ⟨v, hv⟩ : ∃ v,
              alookup db0 (SignProcessor.normalize_text (pySplitext fn).1) = some v := by
            rcases h2 : alookup db0 (SignProcessor.normalize_text (pySplitext fn).1)
              with _ | v
            · exact absurd h2 habs
            · exact ⟨v, rfl⟩
          rw [← hk, hv]
          simp
        · rw [List.find?_cons_of_neg _ (by simp [hk])]

/-- C2: first-discovered-path-wins.  For every sequence of scanned
files, each of the three index builders (`load_video_database`,
`create_sign_database_from_files`,
`AnimationDatabase.load_from_filesystem`) produces an index in which
every canonical key is bound to the data of the first accepted file in
scan order that normalizes to that key; later files with the same key
are dropped and never overwrite the stored value. -/
theorem index_first_wins (files : List ScanFile) (file_list : List Str)
    (k : Str) :
    alookup (load_video_database (some files)).db k =
      ((files.find? (fun f => is_mp4_file f.filename &&
        (normalize_text (pySplitext f.filename).1 = k))).map
        (fun f => f.relPath)) ∧
    alookup (create_sign_database_from_files file_list) k =
      ((file_list.find? (fun fn =>
        !(SignProcessor.normalize_text (pySplitext fn).1).isEmpty &&
        (SignProcessor.normalize_text (pySplitext fn).1 = k))).map
        (fun fn => SignProcessor.normalize_text (pySplitext fn).1)) ∧
    alookup (animation_load_from_filesystem (some files)).1 k =
      ((files.find? (fun f =>
        (((pySplitext f.filename).2.map pyLower) ∈ animation_supported_formats) &&
        (AnimationDatabase.normalize_sign_id (pySplitext f.filename).1 = k))).map
        (fun f => (⟨AnimationDatabase.normalize_sign_id (pySplitext f.filename).1,
          f.relPath, ((pySplitext f.filename).2.map pyLower).drop 1,
          if f.dirName ≠ [] then [f.dirName] else []⟩ : AnimationMetadata))) := by
  have hstep1 : ∀ (st : DB × Nat) (f : ScanFile), load_video_database_step st f =
      if is_mp4_file f.filename then
        (if (alookup st.1 (normalize_text (pySplitext f.filename).1)).isNone then
          (st.1 ++ [(normalize_text (pySplitext f.filename).1, f.relPath)],
            st.2 + 1)
        else st)
      else st :=
    fun st f => rfl
  have hstep2 : ∀ (st : List (Str × AnimationMetadata) × Nat) (f : ScanFile),
      animation_load_step st f =
      if (decide (((pySplitext f.filename).2.map pyLower) ∈ animation_supported_formats)) then
        (if (alookup st.1
            (AnimationDatabase.normalize_sign_id (pySplitext f.filename).1)).isNone then
          (st.1 ++ [(AnimationDatabase.normalize_sign_id (pySplitext f.filename).1,
            ⟨AnimationDatabase.normalize_sign_id (pySplitext f.filename).1,
              f.relPath, ((pySplitext f.filename).2.map pyLower).drop 1,
              if f.dirName ≠ [] then [f.dirName] else []⟩)], st.2 + 1)
        else st)
      else st := by
    intro st f
    by_cases h : ((pySplitext f.filename).2.map pyLower) ∈ animation_supported_formats
    · simp [animation_load_step, h]
    · simp [animation_load_step, h]
  refine ⟨?_, ?_, ?_⟩
  · show alookup ((files.foldl load_video_database_step ([], 0)).1) k = _
    rw [insert_fold_lookup (fun f => is_mp4_file f.filename)
      (fun f => normalize_text (pySplitext f.filename).1) (fun f => f.relPath)
      load_video_database_step hstep1 files ([], 0) k]
    simp [alookup]
  · show alookup (file_list.foldl create_sign_database_step []) k = _
    rw [create_fold_lookup file_list [] k]
    simp [alookup]
  · show alookup ((files.foldl animation_load_step ([], 0)).1) k = _
    rw [insert_fold_lookup
      (fun f => decide (((pySplitext f.filename).2.map pyLower) ∈ animation_supported_formats))
      (fun f => AnimationDatabase.normalize_sign_id (pySplitext f.filename).1)
      (fun f => (⟨AnimationDatabase.normalize_sign_id (pySplitext f.filename).1,
        f.relPath, ((pySplitext f.filename).2.map pyLower).drop 1,
        if f.dirName ≠ [] then [f.dirName] else []⟩ : AnimationMetadata))
      animation_load_step hstep2 files ([], 0) k]
    simp [alookup]

/-- C7: a missing asset root does not raise.  `load_video_database`
leaves the index empty and warns, `load_from_filesystem` warns and
returns 0 loaded, every lookup in the resulting empty index misses, and
translation still answers, reporting every token as missing. -/
theorem missing_root_degraded :
    load_video_database none = ⟨[], 0, true⟩ ∧
    animation_load_from_filesystem none = ([], 0, true) ∧
    (∀ k, alookup (load_video_database none).db k = none) ∧
    (∀ text, (text_to_videos (load_video_database none).db text).2.1 = [] ∧
      (text_to_videos (load_video_database none).db text).2.2 =
        pySplit (normalize_text text)) := by
  refine ⟨rfl, rfl, fun k => rfl, fun text => ?_⟩
  have h1 := text_to_videos_fold [] (pySplit (normalize_text text)) ([], [], [])
  constructor
  · show ((pySplit (normalize_text text)).foldl (text_to_videos_step [])
      ([], [], [])).2.1 = []
    rw [h1]
    simp [alookup]
  · show ((pySplit (normalize_text text)).foldl (text_to_videos_step [])
      ([], [], [])).2.2 = pySplit (normalize_text text)
    rw [h1]
    simp [alookup]

-- The `/translate` endpoint.

/-- The user-facing status messages of the `/translate` endpoint of
`app.py`, as structured data (`found n` stands for the French
"n signe(s) trouvé(s)" f-string). -/
inductive ApiMessage where
  | noText
  | emptyText
  | noSign
  | found (n : Nat)
deriving DecidableEq

/-- The JSON envelope returned by the `/translate` endpoint. -/
structure TranslateResponse where
  success : Bool
  message : ApiMessage
  videos : List Str
  matched_words : List Str
  missing_words : List Str
deriving DecidableEq

namespace App

/-- The `/translate` endpoint of `app.py`: `none` models a request body
without a `text` field; the result pairs the JSON envelope with the
HTTP status code. -/
def translate (db : DB) (text : Option Str) : TranslateResponse × Nat :=
  match text with
  | none => (⟨false, .noText, [], [], []⟩, 400)
  | some t0 =>
    if pyStrip t0 = [] then (⟨false, .emptyText, [], [], []⟩, 400)
    else
      let r := text_to_videos db (pyStrip t0)
      if r.1 = [] then (⟨false, .noSign, [], r.2.1, r.2.2⟩, 200)
      else (⟨true, .found r.1.length, r.1, r.2.1, r.2.2⟩, 200)

end App

/-- The video list of `text_to_videos` is empty exactly when its matched
list is. -/
theorem text_to_videos_videos_empty (db : DB) (t : Str) :
    (text_to_videos db t).1 = [] ↔ (text_to_videos db t).2.1 = [] := by
  have h := text_to_videos_fold db (pySplit (normalize_text t)) ([], [], [])
  unfold text_to_videos
  rw [h]
  simp [List.map_eq_nil_iff]

/-- C6 counterexample: the endpoint does not return a ternary outcome.
A fully matched request ("oui", nothing missing) and a partially
matched one ("oui xyz", "xyz" missing) receive the same boolean
`success` flag and the same message; only the matched/missing lists
differ. -/
theorem translate_outcome_not_ternary :
    ((App.translate [("oui".data, "oui.mp4".data)] (some "oui".data)).1.missing_words
        = [] ∧
      (App.translate [("oui".data, "oui.mp4".data)]
        (some "oui xyz".data)).1.missing_words = ["xyz".data]) ∧
    (App.translate [("oui".data, "oui.mp4".data)] (some "oui".data)).1.success =
      (App.translate [("oui".data, "oui.mp4".data)] (some "oui xyz".data)).1.success ∧
    (App.translate [("oui".data, "oui.mp4".data)] (some "oui".data)).1.message =
      (App.translate [("oui".data, "oui.mp4".data)] (some "oui xyz".data)).1.message := by
  decide

/-- C6 amended: for a nonempty stripped input, the endpoint answers 200
with a boolean `success` flag that is true exactly when at least one
token matched; the full/partial distinction is not carried by a
dedicated outcome value and is recoverable only from the lists. -/
theorem translate_success_boolean (db : DB) (text : Str)
    (h : pyStrip text ≠ []) :
    ((App.translate db (some text)).1.success = true ↔
      (App.translate db (some text)).1.matched_words ≠ []) ∧
    (App.translate db (some text)).2 = 200 := by
  simp only [App.translate]
  rw [if_neg h]
  by_cases hv : (text_to_videos db (pyStrip text)).1 = []
  · rw [if_pos hv]
    have hm := (text_to_videos_videos_empty db (pyStrip text)).mp hv
    simp [hm]
  · rw [if_neg hv]
    have hm := fun hc => hv ((text_to_videos_videos_empty db (pyStrip text)).mpr hc)
    simp [hm]
    exact hm

/-- Witness for `translate_success_boolean` on a concrete database and
request. -/
theorem translate_success_boolean_witness :
    ((App.translate [("oui".data, "p".data)] (some "oui".data)).1.success = true ↔
      (App.translate [("oui".data, "p".data)] (some "oui".data)).1.matched_words ≠ []) ∧
    (App.translate [("oui".data, "p".data)] (some "oui".data)).2 = 200 :=
  translate_success_boolean [("oui".data, "p".data)] "oui".data (by decide)

-- The avatar translation mode (`/api/avatar/translate`).

/-- The literal `animation_map` dict of `avatar_translate` in `app.py`. -/
def animation_map : DB :=
  [("bonjour".data, "Wave".data), ("salut".data, "Wave".data),
   ("coucou".data, "Wave".data),
   ("oui".data, "ThumbsUp".data), ("daccord".data, "ThumbsUp".data),
   ("bien".data, "ThumbsUp".data), ("merci".data, "ThumbsUp".data),
   ("bravo".data, "ThumbsUp".data),
   ("non".data, "No".data), ("pas".data, "No".data),
   ("jamais".data, "No".data),
   ("content".data, "Happy Idle".data), ("heureux".data, "Happy Idle".data),
   ("joie".data, "Happy Idle".data),
   ("triste".data, "Sad Idle".data), ("malheureux".data, "Sad Idle".data),
   ("mal".data, "Sad Idle".data),
   ("danser".data, "Dance".data), ("danse".data, "Dance".data),
   ("fete".data, "Dance".data),
   ("courir".data, "Running".data), ("vite".data, "Running".data),
   ("urgence".data, "Running".data),
   ("marcher".data, "Walking".data), ("aller".data, "Walking".data),
   ("venir".data, "Walking".data),
   ("sauter".data, "Jump".data), ("saut".data, "Jump".data),
   ("mourir".data, "Death".data), ("mort".data, "Death".data),
   ("frapper".data, "Punch".data), ("battre".data, "Punch".data)]

/-- The per-word gesture chosen for a video-database word by the
`medical_animation_map` construction loop of `avatar_translate`
(the final `else` branch assigns the neutral placeholder `Idle`). -/
def medical_word_animation (word : Str) : Str :=
  if word ∈ ["medecin".data, "docteur".data, "infirmier".data,
      "infirmiere".data, "sage-femme".data] then "Wave".data
  else if word ∈ ["hopital".data, "clinique".data, "pharmacie".data,
      "laboratoire".data] then "Walking".data
  else if word ∈ ["douleur".data, "malade".data, "fievre".data,
      "fatigue".data] then "Sad Idle".data
  else if word ∈ ["guerison".data, "sante".data, "gueri".data] then
    "Happy Idle".data
  else "Idle".data

/-- `medical_animation_map`: every key of the video database is mapped
to its category gesture. -/
def medical_animation_map (db : DB) : DB :=
  db.map (fun e => (e.1, medical_word_animation e.1))

/-- Lookup in `full_map = {**medical_animation_map, **animation_map}`:
entries of `animation_map` override the medical map. -/
def full_map_lookup (db : DB) (w : Str) : Option Str :=
  (alookup animation_map w).or (alookup (medical_animation_map db) w)

/-- One entry of the `animations` list answered by
`/api/avatar/translate` (the constant `transition_in = 0.4` float is
omitted from the model). -/
structure AvatarAnimation where
  sign_id : Str
  animation_name : Str
  word : Str
deriving DecidableEq

/-- One iteration of the word loop of `avatar_translate`: a word found
in `full_map` is matched with its mapped animation; otherwise a word
found in the video database is matched with the neutral `Idle`
animation; otherwise the word is missing. -/
def avatar_translate_step (db : DB)
    (acc : List AvatarAnimation × List Str × List Str) (word : Str) :
    List AvatarAnimation × List Str × List Str :=
  match full_map_lookup db word with
  | some anim => (acc.1 ++ [⟨word, anim, word⟩], acc.2.1 ++ [word], acc.2.2)
  | none =>
    if (alookup db word).isSome then
      (acc.1 ++ [⟨word, "Idle".data, word⟩], acc.2.1 ++ [word], acc.2.2)
    else (acc.1, acc.2.1, acc.2.2 ++ [word])

/-- The word-processing core of the `/api/avatar/translate` endpoint of
`app.py` (the JSON envelope around it — success flag and message — is
the same shape as `/translate` and is omitted here): returns
`(animations, matched, missing)`. -/
def avatar_translate (db : DB) (text : Str) :
    List AvatarAnimation × List Str × List Str :=
  (pySplit (normalize_text text)).foldl (avatar_translate_step db) ([], [], [])

/-- The animation assigned to a resolvable word: its `full_map` entry,
defaulting to the neutral `Idle` placeholder. -/
def avatar_word_animation (db : DB) (w : Str) : Str :=
  (full_map_lookup db w).getD "Idle".data

/-- The avatar word loop builds its three lists as order-preserving
filters: a word resolves iff it is in `full_map` or in the video
database. -/
theorem avatar_translate_fold (db : DB) : ∀ (ws : List Str)
    (acc : List AvatarAnimation × List Str × List Str),
    ws.foldl (avatar_translate_step db) acc =
      (acc.1 ++ (ws.filter (fun w => (full_map_lookup db w).isSome ||
          (alookup db w).isSome)).map
          (fun w => ⟨w, avatar_word_animation db w, w⟩),
       acc.2.1 ++ ws.filter (fun w => (full_map_lookup db w).isSome ||
          (alookup db w).isSome),
       acc.2.2 ++ ws.filter (fun w => !((full_map_lookup db w).isSome ||
          (alookup db w).isSome))) := by
  intro ws
  induction ws with
  | nil => intro acc; simp
  | cons w ws ih =>
    intro acc
    rw [List.foldl_cons, ih]
    cases hf : full_map_lookup db w with
    | some anim =>
      simp [avatar_translate_step, avatar_word_animation, hf, List.filter_cons]
    | none =>
      cases hdb : alookup db w with
      | some v =>
        simp [avatar_translate_step, avatar_word_animation, hf, hdb,
          List.filter_cons]
      | none =>
        simp [avatar_translate_step, avatar_word_animation, hf, hdb,
          List.filter_cons]

/-- Looking up a key in a map over the entries that rewrites only the
values as a function of the key. -/
theorem alookup_map_keys (g : Str → Str) : ∀ (db : DB) (k : Str),
    alookup (db.map (fun e => (e.1, g e.1))) k =
      (alookup db k).map (fun _ => g k) := by
  intro db
  induction db with
  | nil => intro k; rfl
  | cons e db ih =>
    intro k
    by_cases h : e.1 = k
    · unfold alookup
      rw [List.map_cons, List.find?_cons_of_pos _ (by simp [h]),
        List.find?_cons_of_pos _ (by simp [h])]
      simp [h]
    · unfold alookup
      rw [List.map_cons, List.find?_cons_of_neg _ (by simp [h]),
        List.find?_cons_of_neg _ (by simp [h])]
      exact ih k

/-- C9: in the avatar translation mode, a normalized token that is a
key of the video database is never reported missing: it is always
matched, and when it has no specific animation mapping (no
`animation_map` entry and none of the medical category gestures) every
animation entry produced for it carries the neutral placeholder
animation `Idle`. -/
theorem avatar_db_word_never_missing (db : DB) (text : Str) (w : Str)
    (hw : w ∈ pySplit (normalize_text text))
    (hdb : (alookup db w).isSome = true) :
    w ∈ (avatar_translate db text).2.1 ∧
    w ∉ (avatar_translate db text).2.2 ∧
    (alookup animation_map w = none → medical_word_animation w = "Idle".data →
      ∀ a ∈ (avatar_translate db text).1, a.word = w →
        a.animation_name = "Idle".data) := by
  have hfold := avatar_translate_fold db (pySplit (normalize_text text))
    ([], [], [])
  have hp : ((full_map_lookup db w).isSome || (alookup db w).isSome) = true := by
    simp [hdb]
  refine ⟨?_, ?_, ?_⟩
  · show w ∈ ((pySplit (normalize_text text)).foldl (avatar_translate_step db)
      ([], [], [])).2.1
    rw [hfold]
    simp only [List.nil_append, List.mem_filter]
    exact ⟨hw, hp⟩
  · show w ∉ ((pySplit (normalize_text text)).foldl (avatar_translate_step db)
      ([], [], [])).2.2
    rw [hfold]
    simp only [List.nil_append, List.mem_filter, Bool.not_eq_true', not_and]
    intro _
    simp [hp]
  · intro ham hmed a ha haw
    have hanim : (avatar_translate db text).1 =
        ((pySplit (normalize_text text)).filter
          (fun w => (full_map_lookup db w).isSome || (alookup db w).isSome)).map
          (fun w => ⟨w, avatar_word_animation db w, w⟩) := by
      show ((pySplit (normalize_text text)).foldl (avatar_translate_step db)
        ([], [], [])).1 = _
      rw [hfold]
      rfl
    rw [hanim] at ha
    obtain ⟨w2, hw2, hae⟩ := List.mem_map.mp ha
    subst hae
    have hww : w2 = w := haw
    subst hww
    obtain ⟨v, hv⟩ := Option.isSome_iff_exists.mp hdb
    show (full_map_lookup db w2).getD "Idle".data = "Idle".data
    unfold full_map_lookup
    rw [ham, Option.none_or,
      show medical_animation_map db =
        db.map (fun e => (e.1, medical_word_animation e.1)) from rfl,
      alookup_map_keys, hv]
    simp [hmed]

/-- Witness for `avatar_db_word_never_missing` on a concrete database
containing a word with no specific animation mapping. -/
theorem avatar_db_word_never_missing_witness :
    "hello".data ∈ (avatar_translate [("hello".data, "p".data)]
      "hello".data).2.1 ∧
    "hello".data ∉ (avatar_translate [("hello".data, "p".data)]
      "hello".data).2.2 ∧
    (alookup animation_map "hello".data = none →
      medical_word_animation "hello".data = "Idle".data →
      ∀ a ∈ (avatar_translate [("hello".data, "p".data)] "hello".data).1,
        a.word = "hello".data → a.animation_name = "Idle".data) :=
  avatar_db_word_never_missing [("hello".data, "p".data)] "hello".data
    "hello".data (by decide) (by decide)

-- The verb-conjugation scenario.

/-- The scenario input "je vais à l'hôpital" (apostrophe spelled as a
character to keep it visible). -/
def scenarioInput : Str := "je vais à l".data ++ '\'' :: "hôpital".data

/-- C5 counterexample: the pipeline performs no conjugation reduction.
With a database keyed by the infinitive "aller", translating
"je vais à l'hôpital" matches nothing: the token "vais" is looked up
verbatim and ends up missing, and the infinitive is never produced. -/
theorem vais_not_lemmatized :
    (text_to_videos [("aller".data, "aller.mp4".data)] scenarioInput).2.1
      = [] ∧
    (text_to_videos [("aller".data, "aller.mp4".data)] scenarioInput).2.2
      = ["je".data, "vais".data, "a".data, "lhopital".data] := by
  decide

/-- C5 amended: the pipeline tokenizes "je vais à l'hôpital" into
["je", "vais", "a", "lhopital"]: "vais" is looked up unchanged (no
reduction to an infinitive exists in the code), while accent stripping
turns "à" into "a" and "ô" into "o", and the deletion of the apostrophe
merges "l" with "hopital" into one token. -/
theorem vais_unchanged_tokens :
    pySplit (normalize_text scenarioInput) =
      ["je".data, "vais".data, "a".data, "lhopital".data] ∧
    "vais".data ∈ pySplit (normalize_text scenarioInput) ∧
    "aller".data ∉ pySplit (normalize_text scenarioInput) := by
  decide

-- The punctuation policy.

/-- The `normalization` block of `NLP_CONFIG` in `backend/config.py`. -/
structure NormalizationConfig where
  lowercase : Bool
  remove_accents : Bool
  remove_punctuation : Bool
  preserve_numbers : Bool
deriving DecidableEq

/-- `NLP_CONFIG["normalization"]` from `backend/config.py`: four boolean
flags, with no punctuation-policy selector. -/
def NLP_CONFIG_normalization : NormalizationConfig :=
  ⟨true, true, true, false⟩

/-- C8 counterexample: neither normalizer replaces punctuation with a
space; both delete it in place, merging adjacent words — "a,b"
normalizes to "ab", not to "a b", under both variants. -/
theorem punctuation_deleted_not_spaced :
    normalize_text "a,b".data = "ab".data ∧
    SignProcessor.normalize_text "a,b".data = "ab".data ∧
    "ab".data ≠ "a b".data := by
  decide

/-- No key of `lowerTable` is punctuation. -/
theorem lowerTable_keys_not_punct :
    lowerTable.all (fun e => !(isPunct e.1)) = true := by
  decide

/-- No key of `nfdTable` is punctuation. -/
theorem nfdTable_keys_not_punct :
    nfdTable.all (fun e => !(isPunct e.1)) = true := by
  decide

/-- A punctuation character contributes nothing to the
lowercase/NFD/punctuation core: it passes untouched through lowering
and decomposition and is then deleted. -/
theorem punct_char_vanishes (c : Char) (hc : isPunct c = true) :
    removePunct ((nfdChar (pyLower c)).filter (fun d => !(isMn d))) = [] := by
  have hl : lowerTable.find? (fun e => e.1 = c) = none := by
    refine List.find?_eq_none.mpr fun e he => ?_
    have h2 := List.all_eq_true.mp lowerTable_keys_not_punct e he
    simp only [Bool.not_eq_true'] at h2
    simp only [decide_eq_true_eq]
    intro hec
    rw [hec] at h2
    rw [h2] at hc
    cases hc
  have hn : nfdTable.find? (fun e => e.1 = c) = none := by
    refine List.find?_eq_none.mpr fun e he => ?_
    have h2 := List.all_eq_true.mp nfdTable_keys_not_punct e he
    simp only [Bool.not_eq_true'] at h2
    simp only [decide_eq_true_eq]
    intro hec
    rw [hec] at h2
    rw [h2] at hc
    cases hc
  have hp : pyLower c = c := by rw [pyLower, hl]
  have hmn : isMn c = false := by
    have hle : c.toNat ≤ 126 := by
      simp only [isPunct, Bool.or_eq_true, Bool.and_eq_true,
        decide_eq_true_eq] at hc
      omega
    have h768 : ¬ (768 ≤ c.toNat) := by omega
    simp [isMn, h768]
  rw [hp, nfdChar, hn]
  simp [removePunct, List.filter, hmn, hc]

/-- The lowercase/NFD/punctuation core over a cons decomposes into the
contribution of the head character and the core of the tail. -/
theorem core_cons (c : Char) (t : Str) :
    removePunct (stripAccents (lowerStr (c :: t))) =
      removePunct ((nfdChar (pyLower c)).filter (fun d => !(isMn d))) ++
      removePunct (stripAccents (lowerStr t)) := by
  simp [lowerStr, stripAccents, removePunct, List.flatMap_cons,
    List.filter_append]

/-- The core stages give the same result whether or not punctuation is
deleted from the input beforehand: punctuation is erased in place, not
replaced. -/
theorem core_punct_delete : ∀ (l : Str),
    removePunct (stripAccents (lowerStr
      (l.filter (fun c => !(isPunct c))))) =
    removePunct (stripAccents (lowerStr l)) := by
  intro l
  induction l with
  | nil => rfl
  | cons c t ih =>
    by_cases hc : isPunct c = true
    · rw [List.filter_cons, if_neg (by simp [hc]), ih]
      conv_rhs => rw [core_cons, punct_char_vanishes c hc, List.nil_append]
    · rw [List.filter_cons, if_pos (by simp [hc]), core_cons, core_cons, ih]

/-- C8 amended: the only punctuation policy implemented by either
normalizer variant is deletion in place — deleting punctuation from the
input beforehand changes nothing, so punctuation characters never
become spaces and never create word boundaries — and the NLP
configuration carries only a boolean `remove_punctuation` flag (no
policy selector). -/
theorem punctuation_policy_delete_only (l : Str) :
    normalize_text (l.filter (fun c => !(isPunct c))) = normalize_text l ∧
    SignProcessor.normalize_text (l.filter (fun c => !(isPunct c))) =
      SignProcessor.normalize_text l ∧
    NLP_CONFIG_normalization.remove_punctuation = true := by
  refine ⟨?_, ?_, rfl⟩
  · show pyStrip (removePunct (stripAccents (lowerStr
      (l.filter (fun c => !(isPunct c)))))) = _
    rw [core_punct_delete]
    rfl
  · show pyStrip (joinWords ' ' (pySplit (removePunct (stripAccents (lowerStr
      (l.filter (fun c => !(isPunct c)))))))) = _
    rw [core_punct_delete]
    rfl
